import Mathlib

/-!
Verification of `igl::repdiag` (src/repdiag.h): repeating a matrix `A`
(dense or sparse) `d` times along the diagonal of a larger matrix `B`.

The C++ has three overloads:
* sparse:  accumulate `dyn_B.coeffRef(i*m+it.row(), i*n+it.col()) += it.value()`
  over `i = 0..d-1` into a row-major `Eigen::DynamicSparseMatrix` of requested
  size `(m*d, n*d)`, then convert to a compressed column-major
  `Eigen::SparseMatrix` (which stores entries in canonical column-major order);
* dense:   `B.resize(m*d, n*d); B.array() *= 0;` then
  `B.block(i*m, i*n, m, n) = A` for `i = 0..d-1`;
* wrapper: `Mat B; repdiag(A, d, B); return B;` with `B` default-constructed
  (a 0-by-0 matrix for both Eigen representations).

The embedding below mirrors those three overloads.  Matrix elements live in an
arbitrary type with the algebraic operations the code uses (`*` and `0` for the
dense zeroing step, `+` and `0` for the sparse accumulation); index arithmetic
is carried out exactly over `Nat` for the non-negative `d` claims, and the
32-bit `int` dimension computation of lines 50-51/84-86 is modelled separately
(`intWrap`, `repdiagRequestedDims`) where overflow is the point of the claim.
-/

/-! ## Dense matrices (`Eigen::Matrix<T, Dynamic, Dynamic>`) -/

/-- A dense dynamic matrix: its dimensions together with an entry function.
Entries outside the `rows × cols` range are phantom (Eigen would not expose
them); matrix equality for the claims is `DenseMat.Equiv`, which only looks at
in-range entries. -/
structure DenseMat (α : Type) where
  rows : Nat
  cols : Nat
  entry : Nat → Nat → α

/-- `B.block(r0, c0, A.rows, A.cols) = A`: overwrite the rectangular window of
`B` with top-left corner `(r0, c0)` and the shape of `A` by the entries of `A`. -/
def setBlock {α : Type} (B : DenseMat α) (r0 c0 : Nat) (A : DenseMat α) : DenseMat α :=
  { B with
    entry := fun i j =>
      if r0 ≤ i ∧ i < r0 + A.rows ∧ c0 ≤ j ∧ j < c0 + A.cols then
        A.entry (i - r0) (j - c0)
      else
        B.entry i j }

/-- A default-constructed `Eigen::Matrix<T, Dynamic, Dynamic>`: 0-by-0,
no accessible entries (the entry function's values are all phantom). -/
def denseEmpty (α : Type) [Zero α] : DenseMat α :=
  { rows := 0, cols := 0, entry := fun _ _ => 0 }

/-- The dense output-parameter overload (src/repdiag.h lines 78-92):
`B.resize(m*d, n*d)` (Eigen's resize leaves the surviving storage contents
unspecified; we model them adversarially as whatever `B0`'s entry function
says, since the next statement erases them), then `B.array() *= 0`, then the
loop `B.block(i*m, i*n, m, n) = A` for `i = 0..d-1`. -/
def repdiagDenseInto {α : Type} [MulZeroClass α]
    (A : DenseMat α) (d : Nat) (B0 : DenseMat α) : DenseMat α :=
  let m := A.rows
  let n := A.cols
  let resized : DenseMat α := { rows := m * d, cols := n * d, entry := B0.entry }
  let zeroed : DenseMat α := { resized with entry := fun i j => resized.entry i j * 0 }
  (List.range d).foldl (fun B i => setBlock B (i * m) (i * n) A) zeroed

/-- The by-value wrapper (src/repdiag.h lines 95-101) instantiated at the dense
representation: `Mat B; repdiag(A, d, B); return B;`. -/
def repdiagDense {α : Type} [MulZeroClass α] (A : DenseMat α) (d : Nat) : DenseMat α :=
  repdiagDenseInto A d (denseEmpty α)

/-- Element-for-element equality of dense matrices: same dimensions and the
same entries at every in-range coordinate. -/
def DenseMat.Equiv {α : Type} (A B : DenseMat α) : Prop :=
  A.rows = B.rows ∧ A.cols = B.cols ∧
    ∀ i j, i < A.rows → j < A.cols → A.entry i j = B.entry i j

/-- Boolean element-for-element comparison of dense matrices (decidable form
of `DenseMat.Equiv`, used to evaluate concrete instances). -/
def DenseMat.beq {α : Type} [BEq α] (A B : DenseMat α) : Bool :=
  A.rows == B.rows && A.cols == B.cols &&
    (List.range A.rows).all fun i =>
      (List.range A.cols).all fun j => A.entry i j == B.entry i j

/-- `(i, j)` lies inside the `k`-th diagonal block of the replication of an
`m`-by-`n` matrix: rows `[k*m, (k+1)*m)`, columns `[k*n, (k+1)*n)`. -/
abbrev InBlock (m n k i j : Nat) : Prop :=
  k * m ≤ i ∧ i < k * m + m ∧ k * n ≤ j ∧ j < k * n + n

/-! ## Sparse matrices (`Eigen::SparseMatrix<T>`) -/

/-- A stored entry of a sparse matrix: `(row, column, value)`. -/
abbrev SpEntry (α : Type) : Type := Nat × Nat × α

/-- A sparse matrix: dimensions plus the list of stored ("non-zero") entries,
in storage order.  A compressed Eigen sparse matrix keeps them in canonical
column-major order with in-range, pairwise-distinct coordinates
(`SparseMat.Wellformed` below). -/
structure SparseMat (α : Type) where
  rows : Nat
  cols : Nat
  entries : List (SpEntry α)

/-- Column-major comparison of stored entries: by column, then by row. -/
def cmLe {α : Type} (e f : SpEntry α) : Bool :=
  e.2.1 < f.2.1 || (e.2.1 == f.2.1 && e.1 ≤ f.1)

/-- A default-constructed `Eigen::SparseMatrix<T>`: 0-by-0 with no stored
entries. -/
def sparseEmpty (α : Type) : SparseMat α :=
  { rows := 0, cols := 0, entries := [] }

/-- One `dyn_B.coeffRef(r, c) += v` step on the stored-entry list of the
`DynamicSparseMatrix` accumulator: if coordinate `(r, c)` is already stored,
add `v` to its value in place; otherwise materialize it (value-initialized to
`0`) and add `v`. -/
def coeffAddDyn {α : Type} [Add α] [Zero α]
    (acc : List (SpEntry α)) (r c : Nat) (v : α) : List (SpEntry α) :=
  if acc.any fun e => e.1 == r && e.2.1 == c then
    acc.map fun e => if e.1 == r && e.2.1 == c then (e.1, e.2.1, e.2.2 + v) else e
  else
    acc ++ [(r, c, 0 + v)]

/-- The stored entries of the `DynamicSparseMatrix` accumulator `dyn_B` after
the double loop of src/repdiag.h lines 62-73: for each repetition `i` in
`0..d-1`, for each stored entry of `A` in storage order,
`coeffRef(i*m + row, i*n + col) += value`.  (The `reserve` call on line 59 is
a capacity hint with no observable effect on the stored entries.) -/
def dynAcc {α : Type} [Add α] [Zero α] (A : SparseMat α) (d : Nat) : List (SpEntry α) :=
  (List.range d).foldl
    (fun acc i =>
      A.entries.foldl
        (fun acc e => coeffAddDyn acc (i * A.rows + e.1) (i * A.cols + e.2.1) e.2.2)
        acc)
    []

/-- The sparse output-parameter overload (src/repdiag.h lines 44-76): build the
accumulator, then `B = Eigen::SparseMatrix<T>(dyn_B)`, which replaces `B`
wholesale (its previous value `B0` is discarded) by the compressed matrix whose
requested size is `(m*d, n*d)` and whose stored entries are those of `dyn_B`
in canonical column-major order. -/
def repdiagSparseInto {α : Type} [Add α] [Zero α]
    (A : SparseMat α) (d : Nat) (B0 : SparseMat α) : SparseMat α :=
  { rows := A.rows * d
  , cols := A.cols * d
  , entries := (dynAcc A d).mergeSort cmLe }

/-- The by-value wrapper (src/repdiag.h lines 95-101) instantiated at the
sparse representation: `Mat B; repdiag(A, d, B); return B;`. -/
def repdiagSparse {α : Type} [Add α] [Zero α] (A : SparseMat α) (d : Nat) : SparseMat α :=
  repdiagSparseInto A d (sparseEmpty α)

/-- Coefficient read-out of a stored-entry list at coordinate `(i, j)`: the sum
of the values stored there (for a well-formed matrix there is at most one, so
this coincides with Eigen's `coeff`: the stored value, or `0` if absent). -/
def coeffL {α : Type} [Add α] [Zero α] (l : List (SpEntry α)) (i j : Nat) : α :=
  ((l.filter fun e => e.1 == i && e.2.1 == j).map fun e => e.2.2).sum

/-- Coefficient read-out of a sparse matrix at `(i, j)`. -/
def SparseMat.coeff {α : Type} [Add α] [Zero α] (A : SparseMat α) (i j : Nat) : α :=
  coeffL A.entries i j

/-- The stored coordinates of a stored-entry list. -/
def keysL {α : Type} (l : List (SpEntry α)) : List (Nat × Nat) :=
  l.map fun e => (e.1, e.2.1)

/-- All stored coordinates are in range. -/
abbrev SparseMat.InBounds {α : Type} (A : SparseMat α) : Prop :=
  ∀ e ∈ A.entries, e.1 < A.rows ∧ e.2.1 < A.cols

/-- No two stored entries share a coordinate. -/
abbrev SparseMat.NodupCoords {α : Type} (A : SparseMat α) : Prop :=
  (keysL A.entries).Nodup

/-- Stored entries are in canonical column-major order. -/
abbrev SparseMat.SortedCM {α : Type} (A : SparseMat α) : Prop :=
  A.entries.Pairwise fun e f => cmLe e f = true

/-- A structurally valid compressed sparse matrix, as Eigen produces them:
in-range, duplicate-free, canonically ordered stored entries. -/
abbrev SparseMat.Wellformed {α : Type} (A : SparseMat α) : Prop :=
  A.InBounds ∧ A.NodupCoords ∧ A.SortedCM

/-- No stored entry holds the value zero (no explicit/structural zeros). -/
abbrev SparseMat.NoStoredZeros {α : Type} [Zero α] (A : SparseMat α) : Prop :=
  ∀ e ∈ A.entries, e.2.2 ≠ (0 : α)

/-- Shift a stored entry of `A` into diagonal block `i` of the replication:
`(r, c, v) ↦ (i*m + r, i*n + c, v)`. -/
def shiftE {α : Type} (m n i : Nat) (e : SpEntry α) : SpEntry α :=
  (i * m + e.1, i * n + e.2.1, e.2.2)

/-! ## The `int` dimension computation (C10) and signed `d` (C5) -/

/-- Wrap a mathematical integer to the 32-bit two's-complement `int` range,
as C++ `int` conversion/arithmetic does on overflow in practice. -/
def intWrap (x : Int) : Int :=
  (x + 2 ^ 31) % 2 ^ 32 - 2 ^ 31

/-- The output dimensions both overloads actually request (src/repdiag.h lines
50-51 & 56-57, 84-86): `A.rows()`/`A.cols()` (Eigen's 64-bit `Index`) are
stored into `int m, n`, `d` is an `int`, and the requested dimensions are the
`int` products `m*d` and `n*d`. -/
def repdiagRequestedDims (rows cols d : Int) : Int × Int :=
  let m := intWrap rows
  let n := intWrap cols
  (intWrap (m * d), intWrap (n * d))

/-- The errors the spec's hardening policy asks for. -/
inductive RepdiagError where
  | invalidArgument
deriving DecidableEq

/-- A dense result whose dimension fields are kept as C++ `int` values (so a
negative requested dimension is representable). -/
structure DenseMatZ (α : Type) where
  rows : Int
  cols : Int
  entry : Nat → Nat → α

/-- The dense overload with `d` as the C++ `int` it is (signed).  The code
performs no validation whatsoever, so the `Except` layer — which is where an
`InvalidArgument` rejection would have to show up — always carries `ok`: the
requested dimensions are the products `m*d`, `n*d` (negative when `d < 0`),
and the copy loop `for(int i = 0; i < d; i++)` runs `d.toNat` times
(zero times when `d ≤ 0`). -/
def repdiagDenseZ {α : Type} [MulZeroClass α]
    (A : DenseMat α) (d : Int) : Except RepdiagError (DenseMatZ α) :=
  Except.ok
    { rows := (A.rows : Int) * d
    , cols := (A.cols : Int) * d
    , entry := (repdiagDenseInto A d.toNat (denseEmpty α)).entry }

/-! ## Concrete instances used to evaluate the theorems -/

/-- The 2-by-2 dense matrix `[[1,2],[3,4]]` of the spec's concrete scenario. -/
def exDense : DenseMat Int :=
  { rows := 2, cols := 2, entry := fun i j => (([[1, 2], [3, 4]].getD i []).getD j 0 : Int) }

/-- The 3-by-3 sparse matrix with stored entries `{(0,0):5, (2,1):7}` of the
spec's concrete scenario. -/
def exSparse : SparseMat Int :=
  { rows := 3, cols := 3, entries := [(0, 0, 5), (2, 1, 7)] }

/-! ## Dense helper lemmas -/

theorem InBlock.pos_rows {m n k i j : Nat} (h : InBlock m n k i j) : 0 < m := by
  obtain ⟨h1, h2, -, -⟩ := h; omega

theorem InBlock.pos_cols {m n k i j : Nat} (h : InBlock m n k i j) : 0 < n := by
  obtain ⟨-, -, h3, h4⟩ := h; omega

theorem InBlock.block_eq {m n k k' i j : Nat}
    (h : InBlock m n k i j) (h' : InBlock m n k' i j) : k = k' := by
  obtain ⟨h1, h2, -, -⟩ := h
  obtain ⟨h1', h2', -, -⟩ := h'
  rcases Nat.lt_trichotomy k k' with hlt | heq | hgt
  · have := Nat.mul_le_mul_right m hlt
    simp [Nat.add_mul] at this
    omega
  · exact heq
  · have := Nat.mul_le_mul_right m hgt
    simp [Nat.add_mul] at this
    omega

theorem InBlock.row_div {m n k i j : Nat} (h : InBlock m n k i j) : i / m = k := by
  obtain ⟨h1, h2, -, -⟩ := h
  exact Nat.div_eq_of_lt_le h1 (by rw [Nat.succ_mul]; omega)

theorem InBlock.col_div {m n k i j : Nat} (h : InBlock m n k i j) : j / n = k := by
  obtain ⟨-, -, h3, h4⟩ := h
  exact Nat.div_eq_of_lt_le h3 (by rw [Nat.succ_mul]; omega)

theorem inBlock_div {m n i j : Nat} (hm : 0 < m) (hn : 0 < n) (hq : i / m = j / n) :
    InBlock m n (i / m) i j := by
  have hi := Nat.div_add_mod i m
  have hj := Nat.div_add_mod j n
  rw [Nat.mul_comm] at hi hj
  have hi' := Nat.mod_lt i hm
  have hj' := Nat.mod_lt j hn
  refine ⟨Nat.div_mul_le_self i m, by omega, ?_, ?_⟩
  · rw [hq]; exact Nat.div_mul_le_self j n
  · rw [hq]; omega

theorem sub_div_mul_eq_mod (i m : Nat) : i - i / m * m = i % m := by
  have h := Nat.div_add_mod i m
  rw [Nat.mul_comm] at h
  omega

/-- The block-copy loop of the dense overload, taken over an arbitrary list of
repetition indices (proof handle on the `foldl` inside `repdiagDenseInto`). -/
def applyBlocks {α : Type} (A : DenseMat α) (l : List Nat) (B : DenseMat α) : DenseMat α :=
  l.foldl (fun B i => setBlock B (i * A.rows) (i * A.cols) A) B

theorem repdiagDenseInto_eq_applyBlocks {α : Type} [MulZeroClass α]
    (A : DenseMat α) (d : Nat) (B0 : DenseMat α) :
    repdiagDenseInto A d B0 =
      applyBlocks A (List.range d)
        { rows := A.rows * d, cols := A.cols * d, entry := fun i j => B0.entry i j * 0 } :=
  rfl

theorem applyBlocks_nil {α : Type} (A B : DenseMat α) : applyBlocks A [] B = B := rfl

theorem applyBlocks_cons {α : Type} (A B : DenseMat α) (i : Nat) (l : List Nat) :
    applyBlocks A (i :: l) B = applyBlocks A l (setBlock B (i * A.rows) (i * A.cols) A) := rfl

theorem applyBlocks_rows {α : Type} (A : DenseMat α) (l : List Nat) (B : DenseMat α) :
    (applyBlocks A l B).rows = B.rows := by
  induction l generalizing B with
  | nil => rfl
  | cons i t ih => rw [applyBlocks_cons, ih]; rfl

theorem applyBlocks_cols {α : Type} (A : DenseMat α) (l : List Nat) (B : DenseMat α) :
    (applyBlocks A l B).cols = B.cols := by
  induction l generalizing B with
  | nil => rfl
  | cons i t ih => rw [applyBlocks_cons, ih]; rfl

theorem setBlock_entry_of_inBlock {α : Type} {A B : DenseMat α} {k i j : Nat}
    (h : InBlock A.rows A.cols k i j) :
    (setBlock B (k * A.rows) (k * A.cols) A).entry i j
      = A.entry (i - k * A.rows) (j - k * A.cols) := by
  simp only [setBlock]
  rw [if_pos h]

theorem setBlock_entry_of_not_inBlock {α : Type} {A B : DenseMat α} {k i j : Nat}
    (h : ¬ InBlock A.rows A.cols k i j) :
    (setBlock B (k * A.rows) (k * A.cols) A).entry i j = B.entry i j := by
  simp only [setBlock]
  rw [if_neg h]

theorem applyBlocks_entry_of_forall_not {α : Type} {A : DenseMat α} {i j : Nat} :
    ∀ {l : List Nat} {B : DenseMat α}, (∀ k ∈ l, ¬ InBlock A.rows A.cols k i j) →
      (applyBlocks A l B).entry i j = B.entry i j := by
  intro l
  induction l with
  | nil => intro B _; rfl
  | cons a t ih =>
    intro B h
    rw [applyBlocks_cons, ih fun k hk => h k (List.mem_cons_of_mem a hk)]
    exact setBlock_entry_of_not_inBlock (h a (List.mem_cons_self a t))

theorem applyBlocks_entry_of_mem {α : Type} {A : DenseMat α} {k i j : Nat}
    (hin : InBlock A.rows A.cols k i j) :
    ∀ {l : List Nat} {B : DenseMat α}, k ∈ l →
      (applyBlocks A l B).entry i j = A.entry (i - k * A.rows) (j - k * A.cols) := by
  intro l
  induction l with
  | nil => intro B h; cases h
  | cons a t ih =>
    intro B hk
    rw [applyBlocks_cons]
    by_cases ht : k ∈ t
    · exact ih ht
    · have hak : a = k := by
        rcases List.mem_cons.mp hk with h | h
        · exact h.symm
        · exact absurd h ht
      subst hak
      rw [applyBlocks_entry_of_forall_not
        (fun k' hk' hin' => ht (hin'.block_eq hin ▸ hk'))]
      exact setBlock_entry_of_inBlock hin

theorem repdiagDenseInto_rows {α : Type} [MulZeroClass α]
    (A : DenseMat α) (d : Nat) (B0 : DenseMat α) :
    (repdiagDenseInto A d B0).rows = A.rows * d := by
  rw [repdiagDenseInto_eq_applyBlocks, applyBlocks_rows]

theorem repdiagDenseInto_cols {α : Type} [MulZeroClass α]
    (A : DenseMat α) (d : Nat) (B0 : DenseMat α) :
    (repdiagDenseInto A d B0).cols = A.cols * d := by
  rw [repdiagDenseInto_eq_applyBlocks, applyBlocks_cols]

theorem repdiagDenseInto_entry_of_inBlock {α : Type} [MulZeroClass α]
    {A : DenseMat α} {d : Nat} (B0 : DenseMat α) {k i j : Nat}
    (hk : k < d) (hin : InBlock A.rows A.cols k i j) :
    (repdiagDenseInto A d B0).entry i j = A.entry (i - k * A.rows) (j - k * A.cols) := by
  rw [repdiagDenseInto_eq_applyBlocks]
  exact applyBlocks_entry_of_mem hin (List.mem_range.mpr hk)

theorem repdiagDenseInto_entry_of_out {α : Type} [MulZeroClass α]
    {A : DenseMat α} {d : Nat} (B0 : DenseMat α) {i j : Nat}
    (h : ∀ k, k < d → ¬ InBlock A.rows A.cols k i j) :
    (repdiagDenseInto A d B0).entry i j = 0 := by
  rw [repdiagDenseInto_eq_applyBlocks,
    applyBlocks_entry_of_forall_not fun k hk => h k (List.mem_range.mp hk)]
  exact mul_zero _

theorem repdiagDenseInto_entry_div {α : Type} [MulZeroClass α]
    {A : DenseMat α} {d : Nat} (B0 : DenseMat α) {i j : Nat}
    (hm : 0 < A.rows) (hn : 0 < A.cols)
    (hq : i / A.rows = j / A.cols) (hd : i / A.rows < d) :
    (repdiagDenseInto A d B0).entry i j = A.entry (i % A.rows) (j % A.cols) := by
  rw [repdiagDenseInto_entry_of_inBlock B0 hd (inBlock_div hm hn hq),
    sub_div_mul_eq_mod, hq, sub_div_mul_eq_mod]

theorem repdiagDenseInto_entry_div_out {α : Type} [MulZeroClass α]
    {A : DenseMat α} {d : Nat} (B0 : DenseMat α) {i j : Nat}
    (h : i / A.rows ≠ j / A.cols ∨ d ≤ i / A.rows) :
    (repdiagDenseInto A d B0).entry i j = 0 := by
  refine repdiagDenseInto_entry_of_out B0 fun k hk hin => ?_
  rcases h with h | h
  · exact h (by rw [hin.row_div, hin.col_div])
  · rw [hin.row_div] at h; omega

theorem repdiagDenseInto_indep {α : Type} [MulZeroClass α]
    (A : DenseMat α) (d : Nat) (B0 B1 : DenseMat α) :
    repdiagDenseInto A d B0 = repdiagDenseInto A d B1 := by
  rw [repdiagDenseInto_eq_applyBlocks, repdiagDenseInto_eq_applyBlocks]
  congr 1
  congr 1
  funext i j
  rw [mul_zero, mul_zero]

/-! ## Sparse helper lemmas -/

theorem keysL_append {α : Type} (l1 l2 : List (SpEntry α)) :
    keysL (l1 ++ l2) = keysL l1 ++ keysL l2 := by
  simp [keysL]

theorem keysL_map_shiftE {α : Type} (l : List (SpEntry α)) (m n i : Nat) :
    keysL (l.map (shiftE m n i)) = l.map fun e => (i * m + e.1, i * n + e.2.1) := by
  simp only [keysL, List.map_map]
  rfl

theorem div_mul_add_of_lt {m i r : Nat} (hr : r < m) : (i * m + r) / m = i := by
  rw [Nat.mul_comm, Nat.mul_add_div (by omega), Nat.div_eq_of_lt hr, Nat.add_zero]

theorem shift_row_inj {m i i' r r' : Nat} (hr : r < m) (hr' : r' < m)
    (h : i * m + r = i' * m + r') : i = i' ∧ r = r' := by
  have h1 : i = i' := by
    have hi := div_mul_add_of_lt (i := i) hr
    have hi' := div_mul_add_of_lt (i := i') hr'
    rw [← hi, h, hi']
  refine ⟨h1, ?_⟩
  subst h1
  omega

theorem coeffAddDyn_of_not_mem {α : Type} [Add α] [Zero α] {acc : List (SpEntry α)}
    {r c : Nat} (h : (r, c) ∉ keysL acc) (v : α) :
    coeffAddDyn acc r c v = acc ++ [(r, c, 0 + v)] := by
  rw [coeffAddDyn, if_neg]
  intro hany
  apply h
  simp only [List.any_eq_true, Bool.and_eq_true, beq_iff_eq] at hany
  obtain ⟨e, he, h1, h2⟩ := hany
  rw [keysL]
  exact List.mem_map.mpr ⟨e, he, by rw [h1, h2]⟩

theorem nodup_shift_keys {α : Type} {l : List (SpEntry α)} (h : (keysL l).Nodup)
    (m n i : Nat) : (l.map fun e => (i * m + e.1, i * n + e.2.1)).Nodup := by
  have heq : (l.map fun e => (i * m + e.1, i * n + e.2.1))
      = (keysL l).map fun p => (i * m + p.1, i * n + p.2) := by
    simp only [keysL, List.map_map]
    rfl
  rw [heq]
  refine h.map fun p q hpq => ?_
  simp only [Prod.mk.injEq] at hpq
  obtain ⟨h1, h2⟩ := hpq
  obtain ⟨p1, p2⟩ := p
  obtain ⟨q1, q2⟩ := q
  simp only at h1 h2
  simp only [Prod.mk.injEq]
  omega

theorem innerFold_eq {α : Type} [AddZeroClass α] (m n i : Nat) :
    ∀ (l : List (SpEntry α)), ∀ (acc : List (SpEntry α)),
      (∀ e ∈ l, (i * m + e.1, i * n + e.2.1) ∉ keysL acc) →
      (l.map fun e => (i * m + e.1, i * n + e.2.1)).Nodup →
      l.foldl (fun acc e => coeffAddDyn acc (i * m + e.1) (i * n + e.2.1) e.2.2) acc
        = acc ++ l.map (shiftE m n i) := by
  intro l
  induction l with
  | nil => intro acc _ _; simp
  | cons e t ih =>
    intro acc hfresh hnd
    simp only [List.map_cons, List.nodup_cons] at hnd
    simp only [List.foldl_cons]
    rw [coeffAddDyn_of_not_mem (hfresh e (List.mem_cons_self e t))]
    rw [ih (acc ++ [(i * m + e.1, i * n + e.2.1, 0 + e.2.2)]) ?_ hnd.2]
    · simp [shiftE, List.append_assoc]
    · intro f hf
      rw [keysL_append]
      simp only [List.mem_append, not_or]
      refine ⟨hfresh f (List.mem_cons_of_mem e hf), ?_⟩
      intro hmem
      have hk : (i * m + f.1, i * n + f.2.1) = (i * m + e.1, i * n + e.2.1) := by
        simpa [keysL] using hmem
      apply hnd.1
      rw [← hk]
      exact List.mem_map.mpr ⟨f, hf, rfl⟩

theorem outerFold_eq {α : Type} [AddZeroClass α] (A : SparseMat α)
    (hb : A.InBounds) (hnd : A.NodupCoords) :
    ∀ (l : List Nat), ∀ (acc : List (SpEntry α)), l.Nodup →
      (∀ i ∈ l, ∀ e ∈ A.entries, (i * A.rows + e.1, i * A.cols + e.2.1) ∉ keysL acc) →
      l.foldl
        (fun acc i =>
          A.entries.foldl
            (fun acc e => coeffAddDyn acc (i * A.rows + e.1) (i * A.cols + e.2.1) e.2.2)
            acc)
        acc
        = acc ++ l.flatMap fun i => A.entries.map (shiftE A.rows A.cols i) := by
  intro l
  induction l with
  | nil => intro acc _ _; simp
  | cons i t ih =>
    intro acc hl hfresh
    simp only [List.nodup_cons] at hl
    simp only [List.foldl_cons]
    rw [innerFold_eq A.rows A.cols i A.entries acc (hfresh i (List.mem_cons_self i t))
      (nodup_shift_keys hnd A.rows A.cols i)]
    rw [ih (acc ++ A.entries.map (shiftE A.rows A.cols i)) hl.2 ?_]
    · simp [List.append_assoc]
    · intro i' hi' e he
      rw [keysL_append]
      simp only [List.mem_append, not_or]
      refine ⟨hfresh i' (List.mem_cons_of_mem i hi') e he, ?_⟩
      rw [keysL_map_shiftE]
      intro hmem
      obtain ⟨f, hf, hfeq⟩ := List.mem_map.mp hmem
      simp only [Prod.mk.injEq] at hfeq
      have hii : i = i' ∧ f.1 = e.1 :=
        shift_row_inj (hb f hf).1 (hb e he).1 hfeq.1
      exact hl.1 (hii.1 ▸ hi')

theorem dynAcc_eq {α : Type} [AddZeroClass α] (A : SparseMat α) (d : Nat)
    (hb : A.InBounds) (hnd : A.NodupCoords) :
    dynAcc A d = (List.range d).flatMap fun i => A.entries.map (shiftE A.rows A.cols i) := by
  rw [dynAcc, outerFold_eq A hb hnd (List.range d) [] (List.nodup_range d)
    (fun i _ e _ h => by simp [keysL] at h)]
  rfl

theorem repdiagSparseInto_entries_perm {α : Type} [AddZeroClass α]
    (A : SparseMat α) (d : Nat) (B0 : SparseMat α)
    (hb : A.InBounds) (hnd : A.NodupCoords) :
    ((repdiagSparseInto A d B0).entries).Perm
      ((List.range d).flatMap fun i => A.entries.map (shiftE A.rows A.cols i)) := by
  rw [repdiagSparseInto, dynAcc_eq A d hb hnd]
  exact List.mergeSort_perm _ _

theorem coeffL_nil {α : Type} [AddMonoid α] (i j : Nat) :
    coeffL ([] : List (SpEntry α)) i j = 0 := rfl

theorem coeffL_append {α : Type} [AddMonoid α] (l1 l2 : List (SpEntry α)) (i j : Nat) :
    coeffL (l1 ++ l2) i j = coeffL l1 i j + coeffL l2 i j := by
  simp [coeffL, List.filter_append, List.sum_append]

theorem coeffL_perm {α : Type} [AddCommMonoid α] {l l' : List (SpEntry α)}
    (h : l.Perm l') (i j : Nat) : coeffL l i j = coeffL l' i j :=
  List.Perm.sum_eq ((h.filter _).map _)

theorem coeffL_eq_zero_of_not_mem_keys {α : Type} [AddMonoid α]
    {l : List (SpEntry α)} {i j : Nat} (h : (i, j) ∉ keysL l) : coeffL l i j = 0 := by
  rw [coeffL]
  have hnil : l.filter (fun e => e.1 == i && e.2.1 == j) = [] := by
    rw [List.filter_eq_nil_iff]
    intro e he hpe
    simp only [Bool.and_eq_true, beq_iff_eq] at hpe
    apply h
    rw [keysL]
    exact List.mem_map.mpr ⟨e, he, by rw [hpe.1, hpe.2]⟩
  rw [hnil]
  rfl

theorem coeffL_map_shiftE {α : Type} [AddMonoid α] {m n : Nat} {l : List (SpEntry α)}
    (hb : ∀ e ∈ l, e.1 < m ∧ e.2.1 < n) {k r c : Nat} (hr : r < m) (hc : c < n)
    (i : Nat) :
    coeffL (l.map (shiftE m n i)) (k * m + r) (k * n + c)
      = if i = k then coeffL l r c else 0 := by
  rw [coeffL, List.filter_map]
  by_cases hik : i = k
  · subst hik
    rw [if_pos rfl]
    have hfeq : l.filter ((fun e => e.1 == i * m + r && e.2.1 == i * n + c) ∘ shiftE m n i)
        = l.filter fun e => e.1 == r && e.2.1 == c := by
      apply List.filter_congr
      intro e he
      simp only [Function.comp, shiftE]
      rw [Bool.eq_iff_iff]
      simp only [Bool.and_eq_true, beq_iff_eq]
      omega
    rw [hfeq, coeffL, List.map_map]
    rfl
  · rw [if_neg hik]
    have hfeq : l.filter ((fun e => e.1 == k * m + r && e.2.1 == k * n + c) ∘ shiftE m n i)
        = [] := by
      rw [List.filter_eq_nil_iff]
      intro e he hpe
      simp only [Function.comp, shiftE, Bool.and_eq_true, beq_iff_eq] at hpe
      exact hik (shift_row_inj (hb e he).1 hr hpe.1).1
    rw [hfeq]
    rfl

theorem coeffL_blocks {α : Type} [AddCommMonoid α] (A : SparseMat α) (hb : A.InBounds)
    {k r c : Nat} (hr : r < A.rows) (hc : c < A.cols) :
    ∀ l : List Nat, l.Nodup →
      coeffL (l.flatMap fun i => A.entries.map (shiftE A.rows A.cols i))
          (k * A.rows + r) (k * A.cols + c)
        = if k ∈ l then coeffL A.entries r c else 0 := by
  intro l
  induction l with
  | nil => intro _; simp [coeffL_nil]
  | cons i t ih =>
    intro hnd
    simp only [List.nodup_cons] at hnd
    rw [List.flatMap_cons, coeffL_append, coeffL_map_shiftE hb hr hc i, ih hnd.2]
    by_cases hik : i = k
    · subst hik
      rw [if_pos rfl, if_neg hnd.1, add_zero, if_pos (List.mem_cons_self i t)]
    · rw [if_neg hik, zero_add]
      by_cases hkt : k ∈ t
      · rw [if_pos hkt, if_pos (List.mem_cons_of_mem i hkt)]
      · rw [if_neg hkt, if_neg]
        intro hmem
        rcases List.mem_cons.mp hmem with h | h
        · exact hik h.symm
        · exact hkt h

theorem mem_flatMap_blocks {α : Type} {A : SparseMat α} {d : Nat} {e : SpEntry α}
    (he : e ∈ (List.range d).flatMap fun i => A.entries.map (shiftE A.rows A.cols i)) :
    ∃ i, i < d ∧ ∃ f ∈ A.entries, e = shiftE A.rows A.cols i f := by
  rw [List.mem_flatMap] at he
  obtain ⟨i, hi, hmem⟩ := he
  obtain ⟨f, hf, hfe⟩ := List.mem_map.mp hmem
  exact ⟨i, List.mem_range.mp hi, f, hf, hfe.symm⟩

theorem map_shiftE_zero {α : Type} (m n : Nat) (l : List (SpEntry α)) :
    l.map (shiftE m n 0) = l := by
  have h : ∀ e : SpEntry α, shiftE m n 0 e = e := by
    intro ⟨r, c, v⟩
    simp [shiftE]
  calc l.map (shiftE m n 0) = l.map id := List.map_congr_left fun e _ => h e
    _ = l := List.map_id l

theorem length_flatMap_const {β : Type} {f : Nat → List β} {c : Nat} :
    ∀ l : List Nat, (∀ i ∈ l, (f i).length = c) → (l.flatMap f).length = l.length * c := by
  intro l
  induction l with
  | nil => intro _; simp
  | cons i t ih =>
    intro h
    rw [List.flatMap_cons, List.length_append, h i (List.mem_cons_self i t),
      ih fun i hi => h i (List.mem_cons_of_mem _ hi), List.length_cons]
    ring

theorem sparseMat_eq_fields {α : Type} {A B : SparseMat α} (h1 : A.rows = B.rows)
    (h2 : A.cols = B.cols) (h3 : A.entries = B.entries) : A = B := by
  cases A
  cases B
  simp_all

/-! ## The claims -/

/-- C1: for every m-by-n matrix A (dense or sparse) and every d ≥ 0 and k < d,
the sub-block of repdiag(A, d) occupying rows [k*m, (k+1)*m) and columns
[k*n, (k+1)*n) equals A element-for-element. -/
theorem repdiag_block_eq {α : Type} [NonUnitalNonAssocSemiring α]
    (Ad : DenseMat α) (As : SparseMat α) (d k : Nat) (hk : k < d) :
    (∀ r c, r < Ad.rows → c < Ad.cols →
      (repdiagDense Ad d).entry (k * Ad.rows + r) (k * Ad.cols + c) = Ad.entry r c) ∧
    (As.Wellformed → ∀ r c, r < As.rows → c < As.cols →
      (repdiagSparse As d).coeff (k * As.rows + r) (k * As.cols + c) = As.coeff r c) := by
  constructor
  · intro r c hr hc
    rw [repdiagDense,
      repdiagDenseInto_entry_of_inBlock (denseEmpty α) hk ⟨by omega, by omega, by omega, by omega⟩,
      Nat.add_sub_cancel_left, Nat.add_sub_cancel_left]
  · intro hwf r c hr hc
    rw [SparseMat.coeff, SparseMat.coeff, repdiagSparse,
      coeffL_perm (repdiagSparseInto_entries_perm As d (sparseEmpty α) hwf.1 hwf.2.1),
      coeffL_blocks As hwf.1 hr hc (List.range d) (List.nodup_range d),
      if_pos (List.mem_range.mpr hk)]

/-- Witness for C1: at the 2-by-2 dense example and the 3-by-3 sparse example
with d = 2, k = 1, the second diagonal block reproduces the input entries. -/
theorem repdiag_block_eq_witness :
    (1 < 2 ∧ (repdiagDense exDense 2).entry (1 * 2 + 1) (1 * 2 + 1) = exDense.entry 1 1) ∧
    (repdiagSparse exSparse 2).coeff (1 * 3 + 2) (1 * 3 + 1) = exSparse.coeff 2 1 := by
  refine ⟨⟨by decide, ?_⟩, ?_⟩
  · exact (repdiag_block_eq exDense exSparse 2 1 (by decide)).1 1 1 (by decide) (by decide)
  · exact (repdiag_block_eq exDense exSparse 2 1 (by decide)).2 (by decide) 2 1
      (by decide) (by decide)

/-- C2: every entry of repdiag(A, d) at a coordinate outside all d diagonal
blocks is zero; for sparse A no such coordinate is a stored entry. -/
theorem repdiag_outside_blocks_zero {α : Type} [NonUnitalNonAssocSemiring α]
    (Ad : DenseMat α) (As : SparseMat α) (d : Nat) :
    (∀ i j, (∀ k, k < d → ¬ InBlock Ad.rows Ad.cols k i j) →
      (repdiagDense Ad d).entry i j = 0) ∧
    (As.Wellformed → ∀ i j, (∀ k, k < d → ¬ InBlock As.rows As.cols k i j) →
      (i, j) ∉ keysL (repdiagSparse As d).entries ∧ (repdiagSparse As d).coeff i j = 0) := by
  constructor
  · intro i j h
    exact repdiagDenseInto_entry_of_out (denseEmpty α) h
  · intro hwf i j h
    have hkey : (i, j) ∉ keysL (repdiagSparse As d).entries := by
      intro hmem
      rw [keysL] at hmem
      obtain ⟨e, he, heq⟩ := List.mem_map.mp hmem
      have he' : e ∈ (List.range d).flatMap
          fun i => As.entries.map (shiftE As.rows As.cols i) :=
        ((repdiagSparseInto_entries_perm As d (sparseEmpty α) hwf.1 hwf.2.1).mem_iff).mp
          (by rwa [repdiagSparse] at he)
      obtain ⟨k, hkd, f, hf, hef⟩ := mem_flatMap_blocks he'
      obtain ⟨hfr, hfc⟩ := hwf.1 f hf
      apply h k hkd
      have h1 : e.1 = k * As.rows + f.1 := by rw [hef]; rfl
      have h2 : e.2.1 = k * As.cols + f.2.1 := by rw [hef]; rfl
      have h3 : e.1 = i := congrArg Prod.fst heq
      have h4 : e.2.1 = j := congrArg Prod.snd heq
      refine ⟨by omega, by omega, by omega, by omega⟩
    exact ⟨hkey, coeffL_eq_zero_of_not_mem_keys hkey⟩

/-- Witness for C2: with d = 2, coordinate (0, 3) of the dense 4-by-4 result is
zero, and coordinate (0, 4) of the sparse 6-by-6 result is neither stored nor
non-zero. -/
theorem repdiag_outside_blocks_zero_witness :
    (repdiagDense exDense 2).entry 0 3 = 0 ∧
    ((0, 4) ∉ keysL (repdiagSparse exSparse 2).entries ∧
      (repdiagSparse exSparse 2).coeff 0 4 = 0) := by
  constructor
  · exact (repdiag_outside_blocks_zero exDense exSparse 2).1 0 3 (by decide)
  · exact (repdiag_outside_blocks_zero exDense exSparse 2).2 (by decide) 0 4 (by decide)

/-- C3: repdiag(A, d) has exactly m*d rows and n*d columns, for both overloads;
in particular repdiag(A, 0) is a 0-by-0 matrix. -/
theorem repdiag_dims {α : Type} [NonUnitalNonAssocSemiring α]
    (Ad : DenseMat α) (As : SparseMat α) (d : Nat) :
    ((repdiagDense Ad d).rows = Ad.rows * d ∧ (repdiagDense Ad d).cols = Ad.cols * d) ∧
    ((repdiagSparse As d).rows = As.rows * d ∧ (repdiagSparse As d).cols = As.cols * d) ∧
    ((repdiagDense Ad 0).rows = 0 ∧ (repdiagDense Ad 0).cols = 0 ∧
      (repdiagSparse As 0).rows = 0 ∧ (repdiagSparse As 0).cols = 0) :=
  ⟨⟨repdiagDenseInto_rows Ad d _, repdiagDenseInto_cols Ad d _⟩,
   ⟨rfl, rfl⟩,
   ⟨repdiagDenseInto_rows Ad 0 _, repdiagDenseInto_cols Ad 0 _, rfl, rfl⟩⟩

/-- C4: repdiag(A, 1) equals A element-for-element, and for sparse A the result
is identical stored-entry structure included. -/
theorem repdiag_one_eq {α : Type} [NonUnitalNonAssocSemiring α]
    (Ad : DenseMat α) (As : SparseMat α) :
    DenseMat.Equiv (repdiagDense Ad 1) Ad ∧ (As.Wellformed → repdiagSparse As 1 = As) := by
  constructor
  · refine ⟨repdiagDenseInto_rows Ad 1 _ |>.trans (Nat.mul_one _),
      repdiagDenseInto_cols Ad 1 _ |>.trans (Nat.mul_one _), ?_⟩
    intro i j hi hj
    have hi' : i < Ad.rows := by
      rwa [repdiagDense, repdiagDenseInto_rows, Nat.mul_one] at hi
    have hj' : j < Ad.cols := by
      rwa [repdiagDense, repdiagDenseInto_cols, Nat.mul_one] at hj
    rw [repdiagDense,
      repdiagDenseInto_entry_of_inBlock (denseEmpty α) Nat.one_pos
        ⟨by omega, by omega, by omega, by omega⟩]
    simp
  · intro hwf
    refine sparseMat_eq_fields (Nat.mul_one _) (Nat.mul_one _) ?_
    have hr1 : List.range 1 = [0] := rfl
    rw [repdiagSparse, repdiagSparseInto, dynAcc_eq As 1 hwf.1 hwf.2.1, hr1,
      List.flatMap_singleton, map_shiftE_zero]
    exact List.mergeSort_of_sorted hwf.2.2

/-- Witness for C4: at the concrete dense and sparse examples. -/
theorem repdiag_one_eq_witness :
    DenseMat.Equiv (repdiagDense exDense 1) exDense ∧ repdiagSparse exSparse 1 = exSparse :=
  ⟨(repdiag_one_eq exDense exSparse).1, (repdiag_one_eq exDense exSparse).2 (by decide)⟩

/-- C6: for sparse A with no duplicate stored entries and no stored structural
zeros, repdiag(A, d) stores exactly d times as many entries as A. -/
theorem repdiag_nnz {α : Type} [AddCommMonoid α] (A : SparseMat α) (d : Nat)
    (hb : A.InBounds) (hnd : A.NodupCoords) (hz : A.NoStoredZeros) :
    (repdiagSparse A d).entries.length = d * A.entries.length := by
  rw [repdiagSparse, repdiagSparseInto]
  simp only [List.length_mergeSort]
  rw [dynAcc_eq A d hb hnd,
    length_flatMap_const (List.range d) fun i _ => List.length_map _ _,
    List.length_range]

/-- Witness for C6: the spec's sparse scenario, d = 3 gives 6 stored entries. -/
theorem repdiag_nnz_witness :
    (repdiagSparse exSparse 3).entries.length = 3 * exSparse.entries.length :=
  repdiag_nnz exSparse 3 (by decide) (by decide) (by decide)

/-- C7: the output-parameter overloads resize and fully overwrite B: whatever
the dimensions and contents of B at entry, the result is the same matrix the
freshly-allocating wrapper produces, with the correct (m*d)-by-(n*d)
dimensions. -/
theorem repdiag_into_overwrites {α : Type} [NonUnitalNonAssocSemiring α]
    (Ad : DenseMat α) (As : SparseMat α) (d : Nat)
    (B0 B1 : DenseMat α) (S0 S1 : SparseMat α) :
    (repdiagDenseInto Ad d B0 = repdiagDenseInto Ad d B1 ∧
      repdiagDenseInto Ad d B0 = repdiagDense Ad d ∧
      (repdiagDenseInto Ad d B0).rows = Ad.rows * d ∧
      (repdiagDenseInto Ad d B0).cols = Ad.cols * d) ∧
    (repdiagSparseInto As d S0 = repdiagSparseInto As d S1 ∧
      repdiagSparseInto As d S0 = repdiagSparse As d ∧
      (repdiagSparseInto As d S0).rows = As.rows * d ∧
      (repdiagSparseInto As d S0).cols = As.cols * d) :=
  ⟨⟨repdiagDenseInto_indep Ad d B0 B1, repdiagDenseInto_indep Ad d B0 (denseEmpty α),
    repdiagDenseInto_rows Ad d B0, repdiagDenseInto_cols Ad d B0⟩,
   ⟨rfl, rfl, rfl, rfl⟩⟩

/-- C9: the by-value wrapper returns exactly the matrix the output-parameter
overload produces, whatever B it is given; it is representation-preserving by
construction (the wrapper at a sparse input elaborates at `SparseMat`, at a
dense input at `DenseMat`, mirroring the C++ template dispatch on `Mat`). -/
theorem repdiag_wrapper_eq {α : Type} [NonUnitalNonAssocSemiring α]
    (Ad : DenseMat α) (As : SparseMat α) (d : Nat) (B0 : DenseMat α) (S0 : SparseMat α) :
    repdiagDense Ad d = repdiagDenseInto Ad d B0 ∧
    repdiagSparse As d = repdiagSparseInto As d S0 :=
  ⟨repdiagDenseInto_indep Ad d (denseEmpty α) B0, rfl⟩

theorem repdiagDenseInto_zero_reps_entry {α : Type} [MulZeroClass α]
    (A B0 : DenseMat α) (i j : Nat) :
    (repdiagDenseInto A 0 B0).entry i j = 0 := by
  simp [repdiagDenseInto, List.range_zero, mul_zero]

theorem denseMatZ_eq_fields {α : Type} {A B : DenseMatZ α} (h1 : A.rows = B.rows)
    (h2 : A.cols = B.cols) (h3 : ∀ i j, A.entry i j = B.entry i j) : A = B := by
  cases A
  cases B
  simp only at h1 h2 h3
  subst h1
  subst h2
  congr 1
  funext i j
  exact h3 i j

/-- C5 counterexample: at A = [[1,2],[3,4]] and d = -1 the dense overload does
not reject with InvalidArgument; it silently returns a degenerate result with
requested dimensions -2 by -2 and all entries zero. -/
theorem repdiag_negative_d_not_rejected :
    repdiagDenseZ exDense (-1) ≠ Except.error RepdiagError.invalidArgument ∧
    repdiagDenseZ exDense (-1)
      = Except.ok { rows := -2, cols := -2, entry := fun _ _ => (0 : Int) } := by
  constructor
  · rw [repdiagDenseZ]
    exact fun h => Except.noConfusion h
  · rw [repdiagDenseZ]
    congr 1

/-- C5 amended: the code performs no validation of d.  For every negative d the
dense overload completes without any error: it returns (ok, never an
InvalidArgument rejection) a degenerate result whose requested dimensions are
the non-positive products m*d and n*d and in which no block was copied (every
entry is zero, the copy loop having run zero times). -/
theorem repdiag_negative_d_silent {α : Type} [MulZeroClass α]
    (A : DenseMat α) (d : Int) (hd : d < 0) :
    repdiagDenseZ A d
      = Except.ok
          { rows := (A.rows : Int) * d
          , cols := (A.cols : Int) * d
          , entry := fun _ _ => (0 : α) } ∧
    (A.rows : Int) * d ≤ 0 ∧ (A.cols : Int) * d ≤ 0 := by
  refine ⟨?_, ?_, ?_⟩
  · rw [repdiagDenseZ]
    congr 1
    refine denseMatZ_eq_fields rfl rfl ?_
    intro i j
    have h0 : d.toNat = 0 := Int.toNat_of_nonpos (le_of_lt hd)
    rw [h0]
    exact repdiagDenseInto_zero_reps_entry A (denseEmpty α) i j
  · have h1 : (0 : Int) ≤ (A.rows : Int) := Int.natCast_nonneg _
    nlinarith
  · have h1 : (0 : Int) ≤ (A.cols : Int) := Int.natCast_nonneg _
    nlinarith

/-- Witness for the amended C5 at A = [[1,2],[3,4]], d = -1. -/
theorem repdiag_negative_d_silent_witness :
    (-1 : Int) < 0 ∧
    (repdiagDenseZ exDense (-1)
        = Except.ok
            { rows := (exDense.rows : Int) * (-1)
            , cols := (exDense.cols : Int) * (-1)
            , entry := fun _ _ => (0 : Int) } ∧
      (exDense.rows : Int) * (-1) ≤ 0 ∧ (exDense.cols : Int) * (-1) ≤ 0) :=
  ⟨by decide, repdiag_negative_d_silent exDense (-1) (by decide)⟩

theorem intWrap_eq_self {x : Int} (h1 : -2 ^ 31 ≤ x) (h2 : x < 2 ^ 31) : intWrap x = x := by
  rw [intWrap]
  omega

theorem intWrap_emod (x : Int) : intWrap x % 2 ^ 32 = x % 2 ^ 32 := by
  rw [intWrap]
  omega

theorem intWrap_range (x : Int) : -2 ^ 31 ≤ intWrap x ∧ intWrap x < 2 ^ 31 := by
  rw [intWrap]
  omega

/-- C10: both overloads compute the output dimensions as 32-bit `int` products
m*d and n*d.  For in-`int`-range inputs the requested dimensions are always the
true products reduced modulo 2^32 back into `int` range, so whenever a true
product leaves the 32-bit signed range, the dimension actually requested
differs from it (wrap-around) instead of the call failing. -/
theorem repdiag_dims_int_wrap (rows cols d : Int)
    (hr1 : -2 ^ 31 ≤ rows) (hr2 : rows < 2 ^ 31)
    (hc1 : -2 ^ 31 ≤ cols) (hc2 : cols < 2 ^ 31)
    (hd1 : -2 ^ 31 ≤ d) (hd2 : d < 2 ^ 31) :
    ((repdiagRequestedDims rows cols d).1 % 2 ^ 32 = rows * d % 2 ^ 32 ∧
      (repdiagRequestedDims rows cols d).2 % 2 ^ 32 = cols * d % 2 ^ 32 ∧
      -2 ^ 31 ≤ (repdiagRequestedDims rows cols d).1 ∧
      (repdiagRequestedDims rows cols d).1 < 2 ^ 31 ∧
      -2 ^ 31 ≤ (repdiagRequestedDims rows cols d).2 ∧
      (repdiagRequestedDims rows cols d).2 < 2 ^ 31) ∧
    (¬(-2 ^ 31 ≤ rows * d ∧ rows * d < 2 ^ 31) →
      (repdiagRequestedDims rows cols d).1 ≠ rows * d) ∧
    (¬(-2 ^ 31 ≤ cols * d ∧ cols * d < 2 ^ 31) →
      (repdiagRequestedDims rows cols d).2 ≠ cols * d) := by
  have hfst : (repdiagRequestedDims rows cols d).1 = intWrap (rows * d) := by
    rw [repdiagRequestedDims, intWrap_eq_self hr1 hr2]
  have hsnd : (repdiagRequestedDims rows cols d).2 = intWrap (cols * d) := by
    rw [repdiagRequestedDims, intWrap_eq_self hc1 hc2]
  refine ⟨⟨?_, ?_, ?_, ?_, ?_, ?_⟩, ?_, ?_⟩
  · rw [hfst]; exact intWrap_emod _
  · rw [hsnd]; exact intWrap_emod _
  · rw [hfst]; exact (intWrap_range _).1
  · rw [hfst]; exact (intWrap_range _).2
  · rw [hsnd]; exact (intWrap_range _).1
  · rw [hsnd]; exact (intWrap_range _).2
  · intro hout heq
    rw [hfst] at heq
    exact hout (heq ▸ intWrap_range (rows * d))
  · intro hout heq
    rw [hsnd] at heq
    exact hout (heq ▸ intWrap_range (cols * d))

/-- Witness for C10: a 2^20-row matrix replicated d = 2^13 times wraps the
requested row count to 0 instead of the true 2^33. -/
theorem repdiag_dims_int_wrap_witness :
    (repdiagRequestedDims (2 ^ 20) 1 (2 ^ 13)).1 ≠ 2 ^ 20 * 2 ^ 13 :=
  (repdiag_dims_int_wrap (2 ^ 20) 1 (2 ^ 13) (by decide) (by decide) (by decide)
    (by decide) (by decide) (by decide)).2.1 (by decide)

theorem mul_pos_factors {a b : Nat} (h : 0 < a * b) : 0 < a ∧ 0 < b := by
  have h' := Nat.mul_ne_zero_iff.mp (Nat.pos_iff_ne_zero.mp h)
  exact ⟨Nat.pos_of_ne_zero h'.1, Nat.pos_of_ne_zero h'.2⟩

theorem ne_mod_of_ne_of_div_eq {q p d1 : Nat} (hne : q ≠ p) (hdiv : q / d1 = p / d1) :
    q % d1 ≠ p % d1 := by
  intro hmod
  apply hne
  have h1 := Nat.div_add_mod q d1
  have h2 := Nat.div_add_mod p d1
  rw [hdiv, hmod] at h1
  omega

theorem repdiagDense_rows {α : Type} [MulZeroClass α] (A : DenseMat α) (d : Nat) :
    (repdiagDense A d).rows = A.rows * d := repdiagDenseInto_rows A d _

theorem repdiagDense_cols {α : Type} [MulZeroClass α] (A : DenseMat α) (d : Nat) :
    (repdiagDense A d).cols = A.cols * d := repdiagDenseInto_cols A d _

theorem repdiagDense_entry_div {α : Type} [MulZeroClass α] {A : DenseMat α} {d i j : Nat}
    (hm : 0 < A.rows) (hn : 0 < A.cols) (hq : i / A.rows = j / A.cols)
    (hd : i / A.rows < d) :
    (repdiagDense A d).entry i j = A.entry (i % A.rows) (j % A.cols) :=
  repdiagDenseInto_entry_div _ hm hn hq hd

theorem repdiagDense_entry_div_out {α : Type} [MulZeroClass α] {A : DenseMat α} {d i j : Nat}
    (h : i / A.rows ≠ j / A.cols ∨ d ≤ i / A.rows) :
    (repdiagDense A d).entry i j = 0 :=
  repdiagDenseInto_entry_div_out _ h

theorem DenseMat.equiv_of_beq {α : Type} [BEq α] [LawfulBEq α] {A B : DenseMat α}
    (h : DenseMat.beq A B = true) : DenseMat.Equiv A B := by
  rw [DenseMat.beq] at h
  simp only [Bool.and_eq_true, beq_iff_eq, List.all_eq_true] at h
  obtain ⟨⟨h1, h2⟩, h3⟩ := h
  refine ⟨h1, h2, ?_⟩
  intro i j hi hj
  exact h3 i (List.mem_range.mpr hi) j (List.mem_range.mpr hj)

/-- C8 counterexample: at the spec's own concrete scenario A = [[1,2],[3,4]]
with d1 = d2 = 2, the two sides the claim asserts to differ are in fact equal,
element-for-element. -/
theorem repdiag_compose_concrete :
    DenseMat.beq (repdiagDense (repdiagDense exDense 2) 2) (repdiagDense exDense 4) = true ∧
    DenseMat.Equiv (repdiagDense (repdiagDense exDense 2) 2) (repdiagDense exDense 4) := by
  have h : DenseMat.beq (repdiagDense (repdiagDense exDense 2) 2)
      (repdiagDense exDense 4) = true := by decide
  exact ⟨h, DenseMat.equiv_of_beq h⟩

/-- C8 amended: repeated replication composes multiplicatively after all: for
every dense A and all d1, d2, repdiag(repdiag(A, d1), d2) equals
repdiag(A, d1*d2) element-for-element (the k-th block of the composite, for
k = k2*d1 + k1, is exactly the k-th block of the direct replication: blocks do
not interleave differently). -/
theorem repdiag_compose {α : Type} [MulZeroClass α] (A : DenseMat α) (d1 d2 : Nat) :
    DenseMat.Equiv (repdiagDense (repdiagDense A d1) d2) (repdiagDense A (d1 * d2)) := by
  have hrows : (repdiagDense (repdiagDense A d1) d2).rows = A.rows * (d1 * d2) := by
    rw [repdiagDense_rows, repdiagDense_rows, Nat.mul_assoc]
  have hcols : (repdiagDense (repdiagDense A d1) d2).cols = A.cols * (d1 * d2) := by
    rw [repdiagDense_cols, repdiagDense_cols, Nat.mul_assoc]
  refine ⟨hrows.trans (repdiagDense_rows A (d1 * d2)).symm,
    hcols.trans (repdiagDense_cols A (d1 * d2)).symm, ?_⟩
  intro i j hi hj
  rw [hrows] at hi
  rw [hcols] at hj
  have hpi : 0 < A.rows * (d1 * d2) := Nat.lt_of_le_of_lt (Nat.zero_le i) hi
  have hpj : 0 < A.cols * (d1 * d2) := Nat.lt_of_le_of_lt (Nat.zero_le j) hj
  have hm : 0 < A.rows := (mul_pos_factors hpi).1
  have hn : 0 < A.cols := (mul_pos_factors hpj).1
  have hd1 : 0 < d1 := (mul_pos_factors (mul_pos_factors hpi).2).1
  have hd2 : 0 < d2 := (mul_pos_factors (mul_pos_factors hpi).2).2
  by_cases hqp : i / A.rows = j / A.cols ∧ i / A.rows < d1 * d2
  · obtain ⟨hq, hlt⟩ := hqp
    rw [repdiagDense_entry_div (A := repdiagDense A d1)
        (by rw [repdiagDense_rows]; exact Nat.mul_pos hm hd1)
        (by rw [repdiagDense_cols]; exact Nat.mul_pos hn hd1)
        (by rw [repdiagDense_rows, repdiagDense_cols, ← Nat.div_div_eq_div_mul,
          ← Nat.div_div_eq_div_mul, hq])
        (by rw [repdiagDense_rows, ← Nat.div_div_eq_div_mul]
            exact (Nat.div_lt_iff_lt_mul hd1).mpr (by rw [Nat.mul_comm]; exact hlt))]
    rw [repdiagDense_rows, repdiagDense_cols]
    rw [repdiagDense_entry_div (A := A) hm hn
        (by rw [Nat.mod_mul_right_div_self, Nat.mod_mul_right_div_self, hq])
        (by rw [Nat.mod_mul_right_div_self]; exact Nat.mod_lt _ hd1)]
    rw [Nat.mod_mod_of_dvd i (Dvd.intro d1 rfl), Nat.mod_mod_of_dvd j (Dvd.intro d1 rfl)]
    rw [repdiagDense_entry_div (A := A) hm hn hq hlt]
  · have hout : i / A.rows ≠ j / A.cols ∨ d1 * d2 ≤ i / A.rows := by
      by_cases h : i / A.rows = j / A.cols
      · rcases Nat.lt_or_ge (i / A.rows) (d1 * d2) with h1 | h1
        · exact absurd ⟨h, h1⟩ hqp
        · exact Or.inr h1
      · exact Or.inl h
    rw [repdiagDense_entry_div_out (A := A) hout]
    rcases hout with hne | hge
    · by_cases hdiv : i / A.rows / d1 = j / A.cols / d1
      · by_cases houter : i / (repdiagDense A d1).rows < d2
        · rw [repdiagDense_entry_div (A := repdiagDense A d1)
              (by rw [repdiagDense_rows]; exact Nat.mul_pos hm hd1)
              (by rw [repdiagDense_cols]; exact Nat.mul_pos hn hd1)
              (by rw [repdiagDense_rows, repdiagDense_cols, ← Nat.div_div_eq_div_mul,
                ← Nat.div_div_eq_div_mul]; exact hdiv)
              houter]
          rw [repdiagDense_rows, repdiagDense_cols]
          refine repdiagDense_entry_div_out (A := A) (Or.inl ?_)
          rw [Nat.mod_mul_right_div_self, Nat.mod_mul_right_div_self]
          exact ne_mod_of_ne_of_div_eq hne hdiv
        · exact repdiagDense_entry_div_out (A := repdiagDense A d1)
            (Or.inr (Nat.le_of_not_lt houter))
      · refine repdiagDense_entry_div_out (A := repdiagDense A d1) (Or.inl ?_)
        rw [repdiagDense_rows, repdiagDense_cols, ← Nat.div_div_eq_div_mul,
          ← Nat.div_div_eq_div_mul]
        exact hdiv
    · refine repdiagDense_entry_div_out (A := repdiagDense A d1) (Or.inr ?_)
      rw [repdiagDense_rows, ← Nat.div_div_eq_div_mul]
      exact (Nat.le_div_iff_mul_le hd1).mpr (by rw [Nat.mul_comm] at hge; exact hge)

/-- Witness for the amended C8 at A = [[1,2],[3,4]], d1 = 3, d2 = 2. -/
theorem repdiag_compose_witness :
    DenseMat.Equiv (repdiagDense (repdiagDense exDense 3) 2) (repdiagDense exDense 6) :=
  repdiag_compose exDense 3 2
